import Mathlib

/-!
Shallow embedding of the text-to-image layout engine of the
smart-weather-clock repository (`src/image_generator.py`, `src/utils.py`,
`src/config_example.py`).  Text measurement (PIL `textbbox`) is an external
capability and is modelled by abstract measurer functions.  Python machine
integers are modelled by `Nat`/`Int`; the float `space_per_gap` division is
modelled by exact rationals.
-/

/-! ### Python string helpers -/

/-- ASCII whitespace as recognised by Python's `str.split()` and `\s`. -/
def pyIsSpace (c : Char) : Bool :=
  c == ' ' || c == '\t' || c == '\n' || c == '\r' || c == '\x0b' || c == '\x0c'

/-- Worker for `str.split()`: splits on runs of whitespace, dropping empties.
`acc` holds the current word reversed. -/
def splitWsAux : List Char → List Char → List (List Char)
  | [], acc => if acc.isEmpty then [] else [acc.reverse]
  | c :: cs, acc =>
    if pyIsSpace c then
      if acc.isEmpty then splitWsAux cs [] else acc.reverse :: splitWsAux cs []
    else splitWsAux cs (c :: acc)

/-- Python `text.split()` (no separator argument). -/
def pySplit (s : String) : List String :=
  (splitWsAux s.data []).map String.mk

/-- Python `' '.join(words)`. -/
def joinSp : List String → String
  | [] => ""
  | [w] => w
  | w :: ws => w ++ " " ++ joinSp ws

/-! ### Configuration constants (`config_example.py`) -/

def LINE_SPACING : Nat := 10
def MIN_AUTO_FONT_SIZE : Nat := 10
def MAX_AUTO_FONT_SIZE : Nat := 200
def AUTO_SIZE_PADDING : Nat := 10
def AUTO_SIZE_PADDING_BOTTOM : Nat := 35

/-! ### Plain-text wrapping (`_wrap_text`, `_wrap_text_for_size`)

`m` is the width measurer (`draw.textbbox(...)[2] - [0]` for the current
font); `maxWidth` is the pixel budget (an `Int`, as in Python it can be
negative when paddings exceed the canvas width). -/

/-- The shared greedy loop of `_wrap_text` / `_wrap_text_for_size`:
`cur` is `current_line` (a list of words); emitted lines are joined strings. -/
def wrap_core (m : String → Nat) (maxWidth : Int) : List String → List String → List String
  | [], cur => if cur.isEmpty then [] else [joinSp cur]
  | w :: ws, cur =>
    if (m (joinSp (cur ++ [w])) : Int) ≤ maxWidth then
      wrap_core m maxWidth ws (cur ++ [w])
    else
      match cur with
      | [] => w :: wrap_core m maxWidth ws []
      | _ :: _ => joinSp cur :: wrap_core m maxWidth ws [w]

/-- `_wrap_text(text, font, draw)` with `max_width` already computed by the
caller as `width - (padding_left + padding_right)`. -/
def wrap_text (m : String → Nat) (maxWidth : Int) (text : String) : List String :=
  let lines := wrap_core m maxWidth (pySplit text) []
  if lines.isEmpty then [text] else lines

/-- `_wrap_text_for_size(text, font, draw, max_width)` (same algorithm,
explicit width argument). -/
def wrap_text_for_size (m : String → Nat) (maxWidth : Int) (text : String) : List String :=
  let lines := wrap_core m maxWidth (pySplit text) []
  if lines.isEmpty then [text] else lines

/-- Same loop, but keeping each line as its list of words (used only for
reasoning; `wrap_core` is this composed with `joinSp`). -/
def wrap_groups (m : String → Nat) (maxWidth : Int) : List String → List String → List (List String)
  | [], cur => if cur.isEmpty then [] else [cur]
  | w :: ws, cur =>
    if (m (joinSp (cur ++ [w])) : Int) ≤ maxWidth then
      wrap_groups m maxWidth ws (cur ++ [w])
    else
      match cur with
      | [] => [w] :: wrap_groups m maxWidth ws []
      | _ :: _ => cur :: wrap_groups m maxWidth ws [w]

/-! ### Auto font size (`calculate_auto_font_size`)

`mW s t` / `mH s t` are the measured bbox width/height of text `t` at font
size `s` (the font resolved by `_get_font(font_path, s)`). -/

/-- The fit test performed at one candidate size inside
`calculate_auto_font_size`. -/
def fitsAt (mW mH : Nat → String → Nat) (width height : Nat) (text : String) (s : Nat) : Bool :=
  let maxW : Int := (width : Int) - 2 * AUTO_SIZE_PADDING
  let lines := wrap_text_for_size (mW s) maxW text
  let totalH : Nat :=
    (lines.map (mH s)).sum +
      (if 1 < lines.length then (lines.length - 1) * LINE_SPACING else 0)
  let actualMaxW : Nat := (lines.map (mW s)).foldl max 0
  decide ((totalH : Int) ≤ (height : Int) - AUTO_SIZE_PADDING - AUTO_SIZE_PADDING_BOTTOM) &&
    decide ((actualMaxW : Int) ≤ (width : Int) - 2 * AUTO_SIZE_PADDING)

/-- The bounded binary-search loop of `calculate_auto_font_size` (at most 10
iterations; the loop breaks once `min_size > max_size`).  Returns the final
`best_size` together with the list of sizes actually tested. -/
def autoLoop (fits : Nat → Bool) : Nat → Nat → Nat → Nat → Nat × List Nat
  | 0, _, _, best => (best, [])
  | fuel + 1, low, high, best =>
    if high < low then (best, [])
    else
      let mid := (low + high) / 2
      if fits mid then
        let r := autoLoop fits fuel (mid + 1) high mid
        (r.1, mid :: r.2)
      else
        let r := autoLoop fits fuel low (mid - 1) best
        (r.1, mid :: r.2)

/-- `calculate_auto_font_size(text, font_path)` for a generator of the given
width and height. -/
def calculate_auto_font_size (mW mH : Nat → String → Nat) (width height : Nat)
    (text : String) : Nat :=
  (autoLoop (fitsAt mW mH width height text) 10
    MIN_AUTO_FONT_SIZE MAX_AUTO_FONT_SIZE MIN_AUTO_FONT_SIZE).1

/-! ### Text segments and the markup parser (`utils.py`) -/

/-- `TextSegment` from `utils.py`. -/
structure TextSegment where
  text : String
  bold : Bool := false
  italic : Bool := false
  underline : Bool := false
deriving DecidableEq, Repr

def isTagChar (c : Char) : Bool :=
  c == 'b' || c == 'i' || c == 'u' || c == 'B' || c == 'I' || c == 'U'

/-- `group(2).lower()` restricted to the tag characters. -/
def lowerTag (c : Char) : Char :=
  if c == 'B' then 'b' else if c == 'I' then 'i' else if c == 'U' then 'u' else c

/-- After the tag letter, the regex `\s*/?>` must close the tag: skip
whitespace, allow one optional '/', then require '>'.  Returns the remaining
input on success. -/
def tagEnd (cs : List Char) : Option (List Char) :=
  match cs.dropWhile pyIsSpace with
  | '>' :: r => some r
  | '/' :: '>' :: r => some r
  | _ => none

/-- One attempted match of the tag regex `<(/?)([biu])\s*/?>` (IGNORECASE)
at the head of the input: returns `(is_closing, lowercase tag name,
input after the match)`. -/
def matchTag : List Char → Option (Bool × Char × List Char)
  | '<' :: rest =>
    let p : Bool × List Char :=
      match rest with
      | '/' :: r => (true, r)
      | _ => (false, rest)
    match p.2 with
    | c :: rest2 =>
      if isTagChar c then
        match tagEnd rest2 with
        | some r => some (p.1, lowerTag c, r)
        | none => none
      else none
    | [] => none
  | _ => none

/-- Flush the accumulated plain text with the flags of the active tag stack
(`'b' in format_stack`, etc.). -/
def mkSeg (cur : List Char) (stack : List Char) : TextSegment :=
  ⟨String.mk cur, stack.contains 'b', stack.contains 'i', stack.contains 'u'⟩

/-- The `re.finditer` scan of `parse_html_formatting`: `cur` is the text
accumulated since the last tag boundary, `stack` the active tag stack.
Fuel is at least the input length, and every step consumes at least one
character, so the fuel-exhaustion branch is unreachable. -/
def parseAux : Nat → List Char → List Char → List Char → List TextSegment
  | _, [], cur, stack => if cur.isEmpty then [] else [mkSeg cur stack]
  | 0, cs, cur, stack =>
    if (cur ++ cs).isEmpty then [] else [mkSeg (cur ++ cs) stack]
  | fuel + 1, c :: cs, cur, stack =>
    match matchTag (c :: cs) with
    | some (true, tag, rest) =>
      (if cur.isEmpty then [] else [mkSeg cur stack]) ++
        parseAux fuel rest [] (stack.erase tag)
    | some (false, tag, rest) =>
      (if cur.isEmpty then [] else [mkSeg cur stack]) ++
        parseAux fuel rest [] (stack ++ [tag])
    | none => parseAux fuel cs (cur ++ [c]) stack

/-- `parse_html_formatting(text)` from `utils.py`. -/
def parse_html_formatting (text : String) : List TextSegment :=
  if text = "" ∨ text.data.contains '<' = false then [⟨text, false, false, false⟩]
  else
    let segs := parseAux text.data.length text.data [] []
    if segs.isEmpty then [⟨text, false, false, false⟩] else segs

/-! ### `has_html_tags` (`utils.py`): `re.search(r'<[biu].*?>', text, re.IGNORECASE)` -/

/-- Is there a '>' before the first newline?  (`.*?>` with `.` not matching
newline.) -/
def gtBeforeNewline : List Char → Bool
  | [] => false
  | c :: rest => if c = '>' then true else if c = '\n' then false else gtBeforeNewline rest

/-- Does a match of `<[biu].*?>` start at the head of the input? -/
def hasTagFrom : List Char → Bool
  | [] => false
  | [_] => false
  | c :: d :: rest => c == '<' && isTagChar d && gtBeforeNewline rest

/-- `re.search`: does a match start anywhere? -/
def hasTagSearch : List Char → Bool
  | [] => false
  | c :: rest => hasTagFrom (c :: rest) || hasTagSearch rest

/-- `has_html_tags(text)` from `utils.py`. -/
def has_html_tags (text : String) : Bool :=
  if text = "" then false else hasTagSearch text.data

/-- A well-formed opening tag of one of the three recognised kinds, i.e. a
match of the parser's tag pattern `<(/?)([biu])\s*/?>` with an empty
closing group, starting anywhere in the input.  This renders the claim's
phrase "well-formed opening tag of exactly one of the three recognized
kinds". -/
def containsOpenTag : List Char → Bool
  | [] => false
  | c :: rest =>
    (match matchTag (c :: rest) with
     | some (false, _, _) => true
     | _ => false) || containsOpenTag rest

/-! ### Formatted-segment wrapping (`_wrap_formatted_text`)

`m b i t` is the measured width of text `t` in the font resolved by
`_get_formatted_font(font_path, font_size, b, i)`. -/

/-- Explode segments into per-word units keeping the segment's formatting
(the two nested `for` loops flattened). -/
def explodeSegments (segs : List TextSegment) : List TextSegment :=
  segs.flatMap fun s => (pySplit s.text).map fun w => ⟨w, s.bold, s.italic, s.underline⟩

/-- The word-placement loop of `_wrap_formatted_text`: `cur` is
`current_line`, `curW` is `current_line_width`. -/
def wrapUnits (m : Bool → Bool → String → Nat) (maxWidth : Int) :
    List TextSegment → List TextSegment → Nat → List (List TextSegment)
  | [], cur, _ => if cur.isEmpty then [] else [cur]
  | u :: us, cur, curW =>
    let ww := m u.bold u.italic u.text
    let sw := if cur.isEmpty then 0 else m u.bold u.italic " "
    if ¬cur.isEmpty ∧ maxWidth < ((curW + sw + ww : Nat) : Int) then
      cur :: wrapUnits m maxWidth us [u] ww
    else if ¬cur.isEmpty then
      wrapUnits m maxWidth us (cur ++ [⟨" ", u.bold, u.italic, u.underline⟩, u]) (curW + sw + ww)
    else
      wrapUnits m maxWidth us (cur ++ [u]) (curW + ww)

/-- `_wrap_formatted_text(segments, ...)` with `max_width` already computed
as `width - (padding_left + padding_right)`. -/
def wrap_formatted_text (m : Bool → Bool → String → Nat) (maxWidth : Int)
    (segs : List TextSegment) : List (List TextSegment) :=
  let lines := wrapUnits m maxWidth (explodeSegments segs) [] 0
  if lines.isEmpty then [[⟨"", false, false, false⟩]] else lines

/-- Checker: every single-space segment in a line carries the formatting of
the element directly before it (the word it trails). -/
def spaceFlagsMatchPrev : List TextSegment → Bool
  | a :: b :: rest =>
    (if b.text = " " then a.bold == b.bold && a.italic == b.italic && a.underline == b.underline
     else true) && spaceFlagsMatchPrev (b :: rest)
  | _ => true

/-- Checker: every single-space segment in a line carries the formatting of
the element directly after it (the word it precedes). -/
def spaceFlagsMatchNext : List TextSegment → Bool
  | a :: b :: rest =>
    (if a.text = " " then a.bold == b.bold && a.italic == b.italic && a.underline == b.underline
     else true) && spaceFlagsMatchNext (b :: rest)
  | _ => true

/-! ### Colours and stroke settings (`_calculate_stroke_settings` and friends) -/

/-- An RGB colour: a 3-tuple of 8-bit channels. -/
abbrev Color := Nat × Nat × Nat

/-- `relative_luminance` inside `_calculate_contrast_ratio`:
`0.2126*r/255 + 0.7152*g/255 + 0.0722*b/255`, exactly in `ℚ`. -/
def relativeLuminance (c : Color) : ℚ :=
  (2126 * c.1 + 7152 * c.2.1 + 722 * c.2.2 : ℚ) / 2550000

/-- `_calculate_contrast_ratio(color1, color2)` (WCAG-style ratio), with the
float arithmetic modelled exactly over `ℚ`. -/
def calculate_contrast (c1 c2 : Color) : ℚ :=
  let l1 := relativeLuminance c1
  let l2 := relativeLuminance c2
  if l2 < l1 then (l1 + 1/20) / (l2 + 1/20) else (l2 + 1/20) / (l1 + 1/20)

/-- `_get_contrasting_color(color)`: perceptual brightness
`(299r + 587g + 114b)/1000`, black stroke for bright colours, white for
dark ones. -/
def get_contrasting_color (c : Color) : Color :=
  if (128 : ℚ) < (299 * c.1 + 587 * c.2.1 + 114 * c.2.2 : ℚ) / 1000
  then (0, 0, 0) else (255, 255, 255)

/-- `_calculate_stroke_settings(text_color, background_color, stroke_width,
stroke_color, auto_stroke)`. -/
def calculate_stroke_settings (textColor backgroundColor : Color)
    (strokeWidth : Nat) (strokeColor : Option Color) (autoStroke : Bool) :
    Nat × Option Color :=
  if strokeWidth = 0 ∧ autoStroke = false then (0, none)
  else if 0 < strokeWidth then
    (strokeWidth, some (strokeColor.getD (get_contrasting_color textColor)))
  else if autoStroke then
    if calculate_contrast textColor backgroundColor < 7 ∧ textColor ≠ (255, 255, 255) then
      (1, some (get_contrasting_color textColor))
    else (0, none)
  else (0, none)

/-! ### Draw events

Pixel-level drawing is modelled as the ordered list of draw calls the code
would issue: text fills, text strokes and underline rules. -/

inductive DrawEvent where
  | txt (s : String) (x y : Int) (c : Color)
  | stroke (s : String) (x y : Int) (w : Nat) (c : Color)
  | rule (x1 y1 x2 y2 : Int) (c : Color)
deriving DecidableEq, Repr

/-- The optional stroke pass before a plain text fill
(`if stroke_width > 0 and stroke_color: draw.text(..., stroke_width=...)`). -/
def strokePass (s : String) (x y : Int) (sw : Nat) (sc : Option Color) : List DrawEvent :=
  match sc with
  | some c => if 0 < sw then [DrawEvent.stroke s x y sw c] else []
  | none => []

/-! ### Justified drawing (`_draw_justified_line`)

`space_per_gap` is a Python float computed by true division; it is modelled
by the exact rational `g`.  `int(x)` is truncation toward zero, which on the
non-negative positions arising here equals the floor. -/

/-- The word-drawing loop of the justified branch: draw each word at
`int(x)`, advance by the word width plus (except after the last word) the
gap `g`. -/
def drawJustWords (m : String → Nat) (g : ℚ) (y : Int) (color : Color)
    (sw : Nat) (sc : Option Color) : List String → ℚ → List DrawEvent
  | [], _ => []
  | w :: ws, x =>
    strokePass w ⌊x⌋ y sw sc ++
      (DrawEvent.txt w ⌊x⌋ y color ::
        drawJustWords m g y color sw sc ws (x + m w + (if ws.isEmpty then 0 else g)))

/-- `_draw_justified_line(draw, line, y, font, color, stroke_width,
stroke_color)` for a canvas of width `width` with left/right paddings
`pl`/`pr`. -/
def draw_justified_line (m : String → Nat) (width pl pr : Nat) (line : String)
    (y : Int) (color : Color) (sw : Nat) (sc : Option Color) : List DrawEvent :=
  let words := pySplit line
  if words.length ≤ 1 then
    let x : Int := ((width : Int) - m line).fdiv 2
    strokePass line x y sw sc ++ [DrawEvent.txt line x y color]
  else
    let availableWidth : Int := (width : Int) - pl - pr
    let totalWordWidth : Int := ((words.map m).sum : Nat)
    let numGaps := words.length - 1
    if 0 < numGaps ∧ 0 ≤ availableWidth - totalWordWidth then
      drawJustWords m (((availableWidth - totalWordWidth : Int) : ℚ) / (numGaps : ℚ))
        y color sw sc words (pl : ℚ)
    else
      strokePass (joinSp words) pl y sw sc ++ [DrawEvent.txt (joinSp words) pl y color]

/-! ### Multi-line drawing (`_draw_multiline_text`) -/

/-- The body of the per-line loop of `_draw_multiline_text`: either the
justified path (all lines but the last when `alignment == 'justify'` and
there are several lines) or a normally aligned draw. -/
def lineEvents (mW : String → Nat) (width pl pr : Nat) (alignment : String)
    (nLines i : Nat) (line : String) (y : Int) (color : Color)
    (sw : Nat) (sc : Option Color) : List DrawEvent :=
  if alignment = "justify" ∧ 1 < nLines ∧ i < nLines - 1 then
    draw_justified_line mW width pl pr line y color sw sc
  else
    let tw : Int := mW line
    let x : Int :=
      if alignment = "center" ∨ (alignment = "justify" ∧ i = nLines - 1) then
        ((width : Int) - tw).fdiv 2
      else if alignment = "left" then (pl : Int)
      else if alignment = "right" then (width : Int) - tw - pr
      else ((width : Int) - tw).fdiv 2
    strokePass line x y sw sc ++ [DrawEvent.txt line x y color]

/-- The per-line loop of `_draw_multiline_text`, advancing the vertical
cursor by each line's height plus the effective spacing. -/
def drawLinesAux (mW mH : String → Nat) (width pl pr : Nat) (alignment : String)
    (nLines : Nat) (color : Color) (sw : Nat) (sc : Option Color)
    (spacing : Int) : List String → Nat → Int → List DrawEvent
  | [], _, _ => []
  | line :: rest, i, y =>
    lineEvents mW width pl pr alignment nLines i line y color sw sc ++
      drawLinesAux mW mH width pl pr alignment nLines color sw sc spacing rest (i + 1)
        (y + mH line + spacing)

/-- `_draw_multiline_text(draw, lines, font, color, alignment, stroke_width,
stroke_color)`. -/
def draw_multiline_text (mW mH : String → Nat) (width height pl pr pt pb : Nat)
    (lines : List String) (alignment : String) (color : Color)
    (sw : Nat) (sc : Option Color) : List DrawEvent :=
  let heights := lines.map mH
  let spacing : Int := (LINE_SPACING : Int) + (if 0 < sw then 2 * sw else 0)
  let totalH : Int := (heights.sum : Nat) + ((lines.length : Int) - 1) * spacing
  let availH : Int := (height : Int) - pt - pb
  let y0 : Int := (pt : Int) + (availH - totalH).fdiv 2
  drawLinesAux mW mH width pl pr alignment lines.length color sw sc spacing lines 0 y0

/-! ### Formatted line drawing (`_draw_formatted_line_segments`)

PIL `textbbox((x, y), text, font)` is translation-invariant; it is modelled
as a bbox relative to the origin, shifted by the anchor.  `bb b i t` is the
bbox of text `t` in the font resolved by
`_get_formatted_font(font_path, font_size, b, i)`. -/

structure BBox where
  left : Int
  top : Int
  right : Int
  bottom : Int
deriving DecidableEq, Repr

/-- `bbox[2] - bbox[0]` for a segment. -/
def segWidth (bb : Bool → Bool → String → BBox) (s : TextSegment) : Int :=
  (bb s.bold s.italic s.text).right - (bb s.bold s.italic s.text).left

/-- The per-segment draw loop of `_draw_formatted_line_segments`: skip empty
segments; draw stroke, underline rule and fill; advance `current_x` to the
absolute bbox right edge. -/
def drawFlsLoop (bb : Bool → Bool → String → BBox) (textColor : Color)
    (sw : Nat) (sc : Option Color) (y : Int) : List TextSegment → Int → List DrawEvent
  | [], _ => []
  | s :: rest, x =>
    if s.text = "" then drawFlsLoop bb textColor sw sc y rest x
    else
      let box := bb s.bold s.italic s.text
      strokePass s.text x y sw sc ++
        (if s.underline then
          [DrawEvent.rule (x + box.left) (y + box.bottom + 1) (x + box.right)
            (y + box.bottom + 1) textColor]
         else []) ++
        (DrawEvent.txt s.text x y textColor ::
          drawFlsLoop bb textColor sw sc y rest (x + box.right))

/-- `_draw_formatted_line_segments(draw, line_segments, y, text_color,
alignment, stroke_width, stroke_color, font_path, font_size)`. -/
def draw_formatted_line_segments (bb : Bool → Bool → String → BBox)
    (width pl pr : Nat) (alignment : String) (lineSegments : List TextSegment)
    (y : Int) (textColor : Color) (sw : Nat) (sc : Option Color) : List DrawEvent :=
  let totalWidth : Int := (lineSegments.map (segWidth bb)).sum
  let x0 : Int :=
    if alignment = "center" then ((width : Int) - totalWidth).fdiv 2
    else if alignment = "left" then (pl : Int)
    else if alignment = "right" then (width : Int) - totalWidth - pr
    else ((width : Int) - totalWidth).fdiv 2
  drawFlsLoop bb textColor sw sc y lineSegments x0

/-! ### Checkers used to state the justify-spacing claim -/

/-- Every adjacent pair of text events is separated by a realized gap
(`x2 - x1 - width(w1)`) within one pixel of the exact rational gap `g`. -/
def gapsWithinOne (m : String → Nat) (g : ℚ) : List DrawEvent → Bool
  | DrawEvent.txt w1 x1 _ _ :: DrawEvent.txt w2 x2 y2 c2 :: rest =>
    decide (|((x2 : ℚ) - (x1 : ℚ) - (m w1 : ℚ)) - g| < 1) &&
      gapsWithinOne m g (DrawEvent.txt w2 x2 y2 c2 :: rest)
  | _ => true

/-- The right edge of the final text event (its x plus its measured width),
relative to `pl`, lands in the half-open window `(target - 1, target]`. -/
def rightEdgeIn (m : String → Nat) (pl : Nat) (target : ℚ) : List DrawEvent → Bool
  | [DrawEvent.txt w x _ _] =>
    decide ((x : ℚ) + (m w : ℚ) - (pl : ℚ) ≤ target ∧
      target - 1 < (x : ℚ) + (m w : ℚ) - (pl : ℚ))
  | _ :: b :: rest => rightEdgeIn m pl target (b :: rest)
  | _ => false

/-- The text payload of a draw event. -/
def eventText : DrawEvent → String
  | DrawEvent.txt s _ _ _ => s
  | DrawEvent.stroke s _ _ _ _ => s
  | DrawEvent.rule _ _ _ _ _ => ""

/-- A word as produced by `pySplit`: nonempty and free of whitespace
characters (used to state the wrapping invariants). -/
def wordOk (w : String) : Prop :=
  w.data ≠ [] ∧ ∀ c ∈ w.data, pyIsSpace c = false

/-! ## Theorems -/

/-- C3: `parse_html_formatting "<b>x</b> y"` returns exactly two segments in
order: `{"x", bold}`, then `{" y"}` with no formatting — the split point
falls exactly at the closing tag, and the text flushed there carries the
formatting active before the tag is popped. -/
theorem parse_html_formatting_bold_split :
    parse_html_formatting "<b>x</b> y" =
      [⟨"x", true, false, false⟩, ⟨" y", false, false, false⟩] := by
  decide

/-- C9: in the formatted-text rendering path, drawing a line with alignment
`justify` is extensionally equal to drawing it with alignment `center`: the
same starting x position and identical draw events, with no word-gap
distribution. -/
theorem draw_formatted_line_segments_justify_eq_center
    (bb : Bool → Bool → String → BBox) (width pl pr : Nat)
    (lineSegments : List TextSegment) (y : Int) (textColor : Color)
    (sw : Nat) (sc : Option Color) :
    draw_formatted_line_segments bb width pl pr "justify" lineSegments y textColor sw sc =
      draw_formatted_line_segments bb width pl pr "center" lineSegments y textColor sw sc := by
  rfl

/-- The branchy WCAG ratio of `_calculate_contrast_ratio` equals the
`(max + 0.05) / (min + 0.05)` formulation used by the spec. -/
theorem calculate_contrast_eq_max_min (c1 c2 : Color) :
    calculate_contrast c1 c2 =
      (max (relativeLuminance c1) (relativeLuminance c2) + 1/20) /
        (min (relativeLuminance c1) (relativeLuminance c2) + 1/20) := by
  unfold calculate_contrast
  by_cases h : relativeLuminance c2 < relativeLuminance c1
  · rw [if_pos h, max_eq_left h.le, min_eq_right h.le]
  · rw [if_neg h, max_eq_right (not_lt.mp h), min_eq_left (not_lt.mp h)]

/-- C8: with explicit width 0 and auto-stroke requested, a 1-pixel stroke is
enabled iff the WCAG contrast ratio between text and background is below 7
and the text colour is not pure white; the stroke colour is black when the
text colour's perceptual brightness exceeds 128, else white.  In particular
pure red on black triggers a (white) stroke and white on black never does. -/
theorem calculate_stroke_settings_auto_spec (tc bc : Color) :
    (calculate_stroke_settings tc bc 0 none true =
      if (max (relativeLuminance tc) (relativeLuminance bc) + 1/20) /
           (min (relativeLuminance tc) (relativeLuminance bc) + 1/20) < 7 ∧
         tc ≠ (255, 255, 255) then
        (1, some (if (128 : ℚ) < (299 * tc.1 + 587 * tc.2.1 + 114 * tc.2.2 : ℚ) / 1000
          then (0, 0, 0) else (255, 255, 255)))
      else (0, none)) ∧
    calculate_stroke_settings (255, 0, 0) (0, 0, 0) 0 none true = (1, some (255, 255, 255)) ∧
    calculate_stroke_settings (255, 255, 255) (0, 0, 0) 0 none true = (0, none) := by
  refine ⟨?_, ?_, ?_⟩
  · have h1 : ¬((0 : Nat) = 0 ∧ true = false) := by simp
    have h2 : ¬(0 < (0 : Nat)) := by simp
    unfold calculate_stroke_settings
    rw [if_neg h1, if_neg h2, if_pos rfl, calculate_contrast_eq_max_min]
    rfl
  · norm_num [calculate_stroke_settings, calculate_contrast, relativeLuminance,
      get_contrasting_color]
    decide
  · norm_num [calculate_stroke_settings, calculate_contrast, relativeLuminance,
      get_contrasting_color]

/-- `gtBeforeNewline cs` holds iff `cs` contains a `'>'` with no newline
before it. -/
theorem gtBeforeNewline_iff (cs : List Char) :
    gtBeforeNewline cs = true ↔
      ∃ a b, cs = a ++ '>' :: b ∧ ∀ x ∈ a, x ≠ '\n' := by
  induction cs with
  | nil =>
    constructor
    · intro h
      exact absurd h (by decide)
    · rintro ⟨a, b, hab, -⟩
      simp at hab
  | cons c rest ih =>
    rcases eq_or_ne c '>' with rfl | hgt
    · constructor
      · intro _h
        exact ⟨[], rest, rfl, by simp⟩
      · intro _h
        simp [gtBeforeNewline]
    · rcases eq_or_ne c '\n' with rfl | hnl
      · rw [show gtBeforeNewline ('\n' :: rest) = false by simp [gtBeforeNewline]]
        simp only [Bool.false_eq_true, false_iff]
        rintro ⟨a, b, hab, hno⟩
        cases a with
        | nil => simp at hab
        | cons x a' =>
          simp only [List.cons_append, List.cons.injEq] at hab
          exact hno x (by simp) hab.1.symm
      · rw [show gtBeforeNewline (c :: rest) = gtBeforeNewline rest by
          simp only [gtBeforeNewline]; rw [if_neg hgt, if_neg hnl], ih]
        constructor
        · rintro ⟨a, b, hab, hno⟩
          refine ⟨c :: a, b, by rw [hab, List.cons_append], ?_⟩
          intro x hx
          rcases List.mem_cons.mp hx with rfl | hx'
          · exact hnl
          · exact hno x hx'
        · rintro ⟨a, b, hab, hno⟩
          cases a with
          | nil =>
            simp only [List.nil_append, List.cons.injEq] at hab
            exact absurd hab.1 hgt
          | cons x a' =>
            simp only [List.cons_append, List.cons.injEq] at hab
            exact ⟨a', b, hab.2, fun z hz => hno z (List.mem_cons_of_mem _ hz)⟩

/-- `hasTagSearch cs` holds iff `cs` contains `'<'`, then a tag character,
then a later `'>'` with no newline in between. -/
theorem hasTagSearch_iff (cs : List Char) :
    hasTagSearch cs = true ↔
      ∃ p c mid post, cs = p ++ '<' :: c :: (mid ++ '>' :: post) ∧
        isTagChar c = true ∧ ∀ x ∈ mid, x ≠ '\n' := by
  induction cs with
  | nil =>
    constructor
    · intro h
      exact absurd h (by decide)
    · rintro ⟨p, c, mid, post, hab, -⟩
      simp at hab
  | cons x rest ih =>
    rw [hasTagSearch, Bool.or_eq_true, ih]
    constructor
    · rintro (hfrom | ⟨p, c, mid, post, hab, htag, hmid⟩)
      · cases rest with
        | nil => simp [hasTagFrom] at hfrom
        | cons d rest' =>
          simp only [hasTagFrom, Bool.and_eq_true, beq_iff_eq] at hfrom
          obtain ⟨⟨hx, htag⟩, hgt⟩ := hfrom
          obtain ⟨mid, post, hsplit, hmid⟩ := (gtBeforeNewline_iff rest').mp hgt
          exact ⟨[], d, mid, post, by rw [hx, hsplit]; rfl, htag, hmid⟩
      · exact ⟨x :: p, c, mid, post, by rw [hab, List.cons_append], htag, hmid⟩
    · rintro ⟨p, c, mid, post, hab, htag, hmid⟩
      cases p with
      | nil =>
        left
        simp only [List.nil_append, List.cons.injEq] at hab
        obtain ⟨hx, hrest⟩ := hab
        subst hx
        cases rest with
        | nil => exact absurd hrest (List.cons_ne_nil _ _).symm
        | cons d rest' =>
          simp only [List.cons.injEq] at hrest
          obtain ⟨hd, hrest'⟩ := hrest
          subst hd
          simp only [hasTagFrom, Bool.and_eq_true, beq_iff_eq]
          exact ⟨⟨by trivial, htag⟩, (gtBeforeNewline_iff rest').mpr ⟨mid, post, hrest', hmid⟩⟩
      | cons z p' =>
        right
        simp only [List.cons_append, List.cons.injEq] at hab
        exact ⟨p', c, mid, post, hab.2, htag, hmid⟩

/-- C4 counterexample: `has_html_tags "<br>"` is true although `"<br>"`
contains no well-formed opening tag of the three recognised kinds (no match
of the parser's tag pattern anywhere in the string), refuting the claimed
equivalence. -/
theorem has_html_tags_counterexample :
    has_html_tags "<br>" = true ∧ containsOpenTag "<br>".data = false := by
  decide

/-- C4 amended: `has_html_tags` is true iff the text contains a `'<'`
immediately followed by one of `b`,`i`,`u` (either case) with some later
`'>'` and no newline in between (the regex `<[biu].*?>`); it is still false
for plain text, for `"<div>"` and for a closing tag alone. -/
theorem has_html_tags_spec (text : String) :
    (has_html_tags text = true ↔
      ∃ p c mid post, text.data = p ++ '<' :: c :: (mid ++ '>' :: post) ∧
        isTagChar c = true ∧ ∀ x ∈ mid, x ≠ '\n') ∧
    has_html_tags "<div>" = false ∧ has_html_tags "</b>" = false := by
  refine ⟨?_, by decide, by decide⟩
  unfold has_html_tags
  by_cases h : text = ""
  · subst h
    rw [if_pos rfl]
    constructor
    · intro hfalse
      exact absurd hfalse (by decide)
    · rintro ⟨p, c, mid, post, hab, -⟩
      have hdata : ("" : String).data = [] := rfl
      rw [hdata] at hab
      simp at hab
  · rw [if_neg h]
    exact hasTagSearch_iff text.data

/-- C4 witness: the amended characterisation applied at `"<b>"`. -/
theorem has_html_tags_spec_witness : has_html_tags "<b>" = true :=
  (has_html_tags_spec "<b>").1.mpr ⟨[], 'b', [], [], by decide, by decide, by decide⟩

/-- Every word emitted by `splitWsAux` is nonempty. -/
theorem splitWsAux_ne_nil :
    ∀ (cs acc : List Char), ∀ w ∈ splitWsAux cs acc, w ≠ [] := by
  intro cs
  induction cs with
  | nil =>
    intro acc w hw
    simp only [splitWsAux] at hw
    split_ifs at hw with h
    · simp at hw
    · rw [List.mem_singleton] at hw
      subst hw
      simpa [List.isEmpty_iff] using h
  | cons c cs ih =>
    intro acc w hw
    simp only [splitWsAux] at hw
    split_ifs at hw with h1 h2
    · exact ih [] w hw
    · rcases List.mem_cons.mp hw with rfl | hw'
      · simpa [List.isEmpty_iff] using h2
      · exact ih [] w hw'
    · exact ih (c :: acc) w hw

/-- Every word emitted by `splitWsAux` is whitespace-free (provided the
accumulator is). -/
theorem splitWsAux_no_space :
    ∀ (cs acc : List Char), (∀ c ∈ acc, pyIsSpace c = false) →
      ∀ w ∈ splitWsAux cs acc, ∀ c ∈ w, pyIsSpace c = false := by
  intro cs
  induction cs with
  | nil =>
    intro acc hacc w hw c hc
    simp only [splitWsAux] at hw
    split_ifs at hw with h
    · simp at hw
    · rw [List.mem_singleton] at hw
      subst hw
      exact hacc c (List.mem_reverse.mp hc)
  | cons d cs ih =>
    intro acc hacc w hw c hc
    simp only [splitWsAux] at hw
    split_ifs at hw with h1 h2
    · exact ih [] (by simp) w hw c hc
    · rcases List.mem_cons.mp hw with rfl | hw'
      · exact hacc c (List.mem_reverse.mp hc)
      · exact ih [] (by simp) w hw' c hc
    · refine ih (d :: acc) ?_ w hw c hc
      intro e he
      rcases List.mem_cons.mp he with rfl | he'
      · simpa using h1
      · exact hacc e he'

/-- Every word returned by `pySplit` is a `wordOk`. -/
theorem pySplit_wordOk (s : String) : ∀ w ∈ pySplit s, wordOk w := by
  intro w hw
  obtain ⟨l, hl, rfl⟩ := List.mem_map.mp hw
  exact ⟨splitWsAux_ne_nil s.data [] l hl,
    splitWsAux_no_space s.data [] (by simp) l hl⟩

/-- Scanning a whitespace-free block of characters just accumulates it. -/
theorem splitWsAux_word_prepend :
    ∀ (l : List Char), (∀ c ∈ l, pyIsSpace c = false) → ∀ (acc cs : List Char),
      splitWsAux (l ++ cs) acc = splitWsAux cs (l.reverse ++ acc) := by
  intro l
  induction l with
  | nil => intro _ acc cs; simp
  | cons c l ih =>
    intro hcl acc cs
    have hc : pyIsSpace c = false := hcl c (by simp)
    simp only [List.cons_append, splitWsAux, hc, Bool.false_eq_true, if_false,
      List.append_eq]
    rw [ih (fun e he => hcl e (List.mem_cons_of_mem _ he)) (c :: acc) cs]
    simp [List.append_assoc]

/-- Hitting a space with a nonempty accumulator flushes the word. -/
theorem splitWsAux_flush (cs acc : List Char) (h : acc ≠ []) :
    splitWsAux (' ' :: cs) acc = acc.reverse :: splitWsAux cs [] := by
  have hne : acc.isEmpty = false := by simpa [List.isEmpty_iff] using h
  have hsp : pyIsSpace ' ' = true := by decide
  simp [splitWsAux, hne, hsp]

/-- `joinSp` on a list of at least two words. -/
theorem joinSp_cons (w : String) (ws : List String) (h : ws ≠ []) :
    joinSp (w :: ws) = w ++ " " ++ joinSp ws := by
  cases ws with
  | nil => exact absurd rfl h
  | cons v l => rfl

/-- Splitting the space-join of clean words recovers the words. -/
theorem pySplit_joinSp :
    ∀ ws : List String, (∀ w ∈ ws, wordOk w) → pySplit (joinSp ws) = ws := by
  intro ws
  induction ws with
  | nil => intro _; rfl
  | cons w ws ih =>
    intro hok
    have hw := hok w (by simp)
    cases ws with
    | nil =>
      show (splitWsAux (joinSp [w]).data []).map String.mk = [w]
      have h3 := splitWsAux_word_prepend w.data hw.2 [] []
      simp only [List.append_nil] at h3
      have h4 : splitWsAux ([] : List Char) w.data.reverse = [w.data] := by
        have hne : w.data.reverse.isEmpty = false := by
          simpa [List.isEmpty_iff] using hw.1
        simp [splitWsAux, hne]
      rw [show joinSp [w] = w from rfl, h3, h4]
      rfl
    | cons v rest =>
      have hdata : (joinSp (w :: v :: rest)).data =
          w.data ++ (' ' :: (joinSp (v :: rest)).data) := by
        rw [joinSp_cons w (v :: rest) (List.cons_ne_nil _ _), String.data_append,
          String.data_append]
        simp
      show (splitWsAux (joinSp (w :: v :: rest)).data []).map String.mk = w :: v :: rest
      rw [hdata, splitWsAux_word_prepend w.data hw.2 [] _]
      rw [List.append_nil, splitWsAux_flush _ _ (by simpa [List.isEmpty_iff] using hw.1)]
      rw [List.reverse_reverse, List.map_cons]
      have htail : (splitWsAux (joinSp (v :: rest)).data []).map String.mk = v :: rest :=
        ih fun u hu => hok u (List.mem_cons_of_mem _ hu)
      rw [htail]

/-- `' '.join` over an append of two nonempty lists. -/
theorem joinSp_append :
    ∀ a b : List String, a ≠ [] → b ≠ [] →
      joinSp (a ++ b) = joinSp a ++ " " ++ joinSp b := by
  intro a
  induction a with
  | nil => intro b h _; exact absurd rfl h
  | cons x a' ih =>
    intro b _ hb
    cases a' with
    | nil =>
      rw [List.singleton_append, joinSp_cons x b hb]
      rfl
    | cons y a'' =>
      rw [List.cons_append, joinSp_cons x ((y :: a'') ++ b)
          (by simp), joinSp_cons x (y :: a'') (List.cons_ne_nil _ _),
        ih b (List.cons_ne_nil _ _) hb]
      simp [String.append_assoc]

/-- Joining joined groups is joining the flattened words, for nonempty
groups. -/
theorem joinSp_flatten :
    ∀ gs : List (List String), (∀ g ∈ gs, g ≠ []) →
      joinSp (gs.map joinSp) = joinSp gs.flatten := by
  intro gs
  induction gs with
  | nil => intro _; rfl
  | cons g gs' ih =>
    intro hne
    cases gs' with
    | nil => simp [joinSp]
    | cons g2 rest =>
      have hg : g ≠ [] := hne g (by simp)
      have hg2 : g2 ≠ [] := hne g2 (by simp)
      have hflat : (g2 :: rest).flatten ≠ [] := by
        cases g2 with
        | nil => exact absurd rfl hg2
        | cons z l => simp
      rw [List.map_cons, joinSp_cons _ _ (by simp), ih
          (fun u hu => hne u (List.mem_cons_of_mem _ hu)),
        show (g :: g2 :: rest).flatten = g ++ (g2 :: rest).flatten from rfl,
        joinSp_append g (g2 :: rest).flatten hg hflat]

/-- `wrap_core` is `wrap_groups` with each group joined. -/
theorem wrap_core_eq_groups (m : String → Nat) (W : Int) :
    ∀ ws cur, wrap_core m W ws cur = (wrap_groups m W ws cur).map joinSp := by
  intro ws
  induction ws with
  | nil =>
    intro cur
    simp only [wrap_core, wrap_groups]
    split_ifs <;> simp
  | cons w ws ih =>
    intro cur
    simp only [wrap_core, wrap_groups]
    split_ifs with h
    · exact ih (cur ++ [w])
    · cases cur with
      | nil => simp [ih, joinSp]
      | cons a cur' => simp [ih]

/-- The groups produced by `wrap_groups` partition `cur ++ ws` in order. -/
theorem wrap_groups_flatten (m : String → Nat) (W : Int) :
    ∀ ws cur, (wrap_groups m W ws cur).flatten = cur ++ ws := by
  intro ws
  induction ws with
  | nil =>
    intro cur
    simp only [wrap_groups]
    split_ifs with h
    · simp [List.isEmpty_iff.mp h]
    · simp
  | cons w ws ih =>
    intro cur
    simp only [wrap_groups]
    split_ifs with h
    · rw [ih (cur ++ [w])]
      simp
    · cases cur with
      | nil => simp [ih]
      | cons a cur' => simp [ih]

/-- Every group produced by `wrap_groups` is nonempty. -/
theorem wrap_groups_mem_ne_nil (m : String → Nat) (W : Int) :
    ∀ ws cur g, g ∈ wrap_groups m W ws cur → g ≠ [] := by
  intro ws
  induction ws with
  | nil =>
    intro cur g hg
    simp only [wrap_groups] at hg
    split_ifs at hg with h
    · simp at hg
    · rw [List.mem_singleton] at hg
      subst hg
      simpa [List.isEmpty_iff] using h
  | cons w ws ih =>
    intro cur g hg
    simp only [wrap_groups] at hg
    split_ifs at hg with h
    · exact ih (cur ++ [w]) g hg
    · cases cur with
      | nil =>
        rcases List.mem_cons.mp hg with rfl | hg'
        · simp
        · exact ih [] g hg'
      | cons a cur' =>
        rcases List.mem_cons.mp hg with rfl | hg'
        · simp
        · exact ih [w] g hg'

/-- With pending input, `wrap_groups` emits at least one group. -/
theorem wrap_groups_ne_nil (m : String → Nat) (W : Int) :
    ∀ ws cur, cur ≠ [] ∨ ws ≠ [] → wrap_groups m W ws cur ≠ [] := by
  intro ws
  induction ws with
  | nil =>
    intro cur h
    rcases h with h | h
    · simp only [wrap_groups]
      rw [if_neg (by simpa [List.isEmpty_iff] using h)]
      simp
    · exact absurd rfl h
  | cons w ws ih =>
    intro cur _
    simp only [wrap_groups]
    split_ifs with hf
    · exact ih (cur ++ [w]) (Or.inl (by simp))
    · cases cur <;> simp

/-- Every emitted group either fits the width budget when joined or is a
single word. -/
theorem wrap_groups_fit (m : String → Nat) (W : Int) :
    ∀ ws cur, (cur = [] ∨ (m (joinSp cur) : Int) ≤ W ∨ cur.length = 1) →
      ∀ g ∈ wrap_groups m W ws cur, (m (joinSp g) : Int) ≤ W ∨ g.length = 1 := by
  intro ws
  induction ws with
  | nil =>
    intro cur hinv g hg
    simp only [wrap_groups] at hg
    split_ifs at hg with h
    · simp at hg
    · rw [List.mem_singleton] at hg
      subst hg
      rcases hinv with rfl | h2
      · simp at h
      · exact h2
  | cons w ws ih =>
    intro cur hinv g hg
    simp only [wrap_groups] at hg
    split_ifs at hg with hf
    · exact ih (cur ++ [w]) (Or.inr (Or.inl hf)) g hg
    · cases cur with
      | nil =>
        rcases List.mem_cons.mp hg with rfl | hg'
        · right; rfl
        · exact ih [] (Or.inl rfl) g hg'
      | cons a cur' =>
        rcases List.mem_cons.mp hg with rfl | hg'
        · rcases hinv with h | h
          · exact absurd h (List.cons_ne_nil _ _)
          · exact h
        · exact ih [w] (Or.inr (Or.inr rfl)) g hg'

/-- On input with at least one word, `wrap_text` is the joined groups. -/
theorem wrap_text_eq_groups (m : String → Nat) (W : Int) (text : String)
    (h : pySplit text ≠ []) :
    wrap_text m W text = (wrap_groups m W (pySplit text) []).map joinSp := by
  have hg := wrap_groups_ne_nil m W (pySplit text) [] (Or.inr h)
  have hne : ¬((wrap_groups m W (pySplit text) []).map joinSp).isEmpty = true := by
    simpa [List.isEmpty_iff] using hg
  unfold wrap_text
  rw [wrap_core_eq_groups m W (pySplit text) [], if_neg hne]

/-- Rejoining the wrapped lines with single spaces preserves the word
sequence. -/
theorem wrap_words_joined (m : String → Nat) (W : Int) (text : String) :
    pySplit (joinSp (wrap_text m W text)) = pySplit text := by
  by_cases h : pySplit text = []
  · have h1 : wrap_text m W text = [text] := by
      unfold wrap_text
      rw [h]
      rfl
    rw [h1, show joinSp [text] = text from rfl]
  · rw [wrap_text_eq_groups m W text h,
      joinSp_flatten _ (fun g hg => wrap_groups_mem_ne_nil m W (pySplit text) [] g hg),
      wrap_groups_flatten m W (pySplit text) [], List.nil_append]
    exact pySplit_joinSp (pySplit text) (pySplit_wordOk text)

/-- C10: plain-text wrapping preserves the word sequence — splitting the
space-joined output lines yields exactly the input's word sequence (no word
lost, duplicated, split or reordered) — and an input with zero words yields
exactly one line containing the original text unchanged. -/
theorem wrap_text_word_sequence (m : String → Nat) (maxWidth : Int) (text : String) :
    pySplit (joinSp (wrap_text m maxWidth text)) = pySplit text ∧
    (pySplit text = [] → wrap_text m maxWidth text = [text]) := by
  refine ⟨wrap_words_joined m maxWidth text, fun h => ?_⟩
  unfold wrap_text
  rw [h]
  rfl

/-- C10 witness: the word-sequence theorem applied at a zero-word input. -/
theorem wrap_text_word_sequence_witness :
    pySplit (joinSp (wrap_text String.length 5 " ")) = pySplit " " ∧
    wrap_text String.length 5 " " = [" "] :=
  ⟨(wrap_text_word_sequence String.length 5 " ").1,
    (wrap_text_word_sequence String.length 5 " ").2 (by decide)⟩

/-- C7: plain-text wrapping is idempotent — rejoining the produced lines
with single spaces and wrapping again at the same width with the same
measurer gives the same lines. -/
theorem wrap_text_idempotent (m : String → Nat) (maxWidth : Int) (text : String) :
    wrap_text m maxWidth (joinSp (wrap_text m maxWidth text)) = wrap_text m maxWidth text := by
  by_cases h : pySplit text = []
  · have h1 : wrap_text m maxWidth text = [text] := by
      unfold wrap_text
      rw [h]
      rfl
    rw [h1, show joinSp [text] = text from rfl, h1]
  · have hjoin : pySplit (joinSp (wrap_text m maxWidth text)) = pySplit text :=
      wrap_words_joined m maxWidth text
    rw [wrap_text_eq_groups m maxWidth _ (by rw [hjoin]; exact h), hjoin,
      wrap_text_eq_groups m maxWidth text h]

/-- C2 counterexample: on the zero-word input `" "` with width budget 0 and
the length measurer, the single returned line `" "` has measured width
exceeding the budget yet is not a single overlong word, refuting the claim
as stated for every input text. -/
theorem wrap_text_width_counterexample :
    ∃ line ∈ wrap_text String.length 0 " ",
      ¬((String.length line : Int) ≤ 0 ∨
        (pySplit line = [line] ∧ 0 < (String.length line : Int))) := by
  decide

/-- C2 amended: provided the input has at least one word, every returned
line fits the width budget, except a line that is a single word placed
alone and unbroken (the line equals the word) whose own width exceeds the
budget; wrapping is total by construction. -/
theorem wrap_text_width_spec (m : String → Nat) (maxWidth : Int) (text : String)
    (h : pySplit text ≠ []) :
    ∀ line ∈ wrap_text m maxWidth text,
      (m line : Int) ≤ maxWidth ∨
        (pySplit line = [line] ∧ maxWidth < (m line : Int)) := by
  intro line hline
  rw [wrap_text_eq_groups m maxWidth text h] at hline
  obtain ⟨g, hg, rfl⟩ := List.mem_map.mp hline
  rcases wrap_groups_fit m maxWidth (pySplit text) [] (Or.inl rfl) g hg with hle | hlen
  · exact Or.inl hle
  · obtain ⟨w, rfl⟩ := List.length_eq_one.mp hlen
    have hw : w ∈ pySplit text := by
      have hmem : w ∈ (wrap_groups m maxWidth (pySplit text) []).flatten :=
        List.mem_flatten.mpr ⟨[w], hg, by simp⟩
      rw [wrap_groups_flatten m maxWidth (pySplit text) [], List.nil_append] at hmem
      exact hmem
    have hok := pySplit_wordOk text w hw
    rw [show joinSp [w] = w from rfl]
    rcases le_or_lt (m w : Int) maxWidth with hle | hgt
    · exact Or.inl hle
    · refine Or.inr ⟨?_, hgt⟩
      have := pySplit_joinSp [w] ?_
      · rwa [show joinSp [w] = w from rfl] at this
      · intro u hu
        rw [List.mem_singleton] at hu
        subst hu
        exact hok

/-- C2 witness: the amended width bound applied at a concrete two-word
input. -/
theorem wrap_text_width_spec_witness :
    pySplit "ab cd" ≠ [] ∧
    ∀ line ∈ wrap_text String.length 3 "ab cd",
      (String.length line : Int) ≤ 3 ∨
        (pySplit line = [line] ∧ 3 < (String.length line : Int)) :=
  ⟨by decide, wrap_text_width_spec String.length 3 "ab cd" (by decide)⟩

/-- Invariant of the auto-size binary search: starting from `best ≤ low`,
the loop returns the largest tested size accepted by `fits`, or `best`
when no tested size is accepted. -/
theorem autoLoop_spec (fits : Nat → Bool) :
    ∀ (fuel low high best : Nat), best ≤ low →
      ∀ b ts, autoLoop fits fuel low high best = (b, ts) →
        best ≤ b ∧
        (∀ s ∈ ts.filter fits, s ≤ b) ∧
        (ts.filter fits = [] → b = best) ∧
        (ts.filter fits ≠ [] → b ∈ ts.filter fits) := by
  intro fuel
  induction fuel with
  | zero =>
    intro low high best hb b ts heq
    simp only [autoLoop] at heq
    cases heq
    simp
  | succ fuel ih =>
    intro low high best hb b ts heq
    by_cases hhl : high < low
    · simp only [autoLoop, if_pos hhl] at heq
      cases heq
      simp
    · have hmidle : low ≤ (low + high) / 2 := by omega
      by_cases hf : fits ((low + high) / 2) = true
      · simp only [autoLoop, if_neg hhl, if_pos hf] at heq
        obtain ⟨r1, r2, hr⟩ :
            ∃ r1 r2, autoLoop fits fuel ((low + high) / 2 + 1) high ((low + high) / 2) =
              (r1, r2) := ⟨_, _, rfl⟩
        rw [hr] at heq
        cases heq
        obtain ⟨ihD, ihA, ihB, ihC⟩ :=
          ih ((low + high) / 2 + 1) high ((low + high) / 2) (Nat.le_succ _) r1 r2 hr
        rw [List.filter_cons_of_pos hf]
        refine ⟨le_trans (le_trans hb hmidle) ihD, ?_, ?_, ?_⟩
        · intro s hs
          rcases List.mem_cons.mp hs with rfl | hs'
          · exact ihD
          · exact ihA s hs'
        · intro hemp
          exact absurd hemp (List.cons_ne_nil _ _)
        · intro _
          by_cases hrf : r2.filter fits = []
          · rw [ihB hrf]
            exact List.mem_cons_self _ _
          · exact List.mem_cons_of_mem _ (ihC hrf)
      · simp only [autoLoop, if_neg hhl, if_neg hf] at heq
        obtain ⟨r1, r2, hr⟩ :
            ∃ r1 r2, autoLoop fits fuel low ((low + high) / 2 - 1) best =
              (r1, r2) := ⟨_, _, rfl⟩
        rw [hr] at heq
        cases heq
        obtain ⟨ihD, ihA, ihB, ihC⟩ :=
          ih low ((low + high) / 2 - 1) best hb r1 r2 hr
        rw [List.filter_cons_of_neg (by simpa using hf)]
        exact ⟨ihD, ihA, ihB, ihC⟩

/-- C1: `calculate_auto_font_size` returns the largest font size among those
actually tested during its binary search over
`[MIN_AUTO_FONT_SIZE, MAX_AUTO_FONT_SIZE]` for which the wrapped text fits
both the width budget and the height budget (the fit test `fitsAt`); if no
tested size fits, it returns the configured minimum size. -/
theorem calculate_auto_font_size_spec (mW mH : Nat → String → Nat)
    (width height : Nat) (text : String) :
    (∀ s ∈ ((autoLoop (fitsAt mW mH width height text) 10 MIN_AUTO_FONT_SIZE
          MAX_AUTO_FONT_SIZE MIN_AUTO_FONT_SIZE).2.filter
          (fitsAt mW mH width height text)),
        s ≤ calculate_auto_font_size mW mH width height text) ∧
    (((autoLoop (fitsAt mW mH width height text) 10 MIN_AUTO_FONT_SIZE
          MAX_AUTO_FONT_SIZE MIN_AUTO_FONT_SIZE).2.filter
          (fitsAt mW mH width height text)) ≠ [] →
      calculate_auto_font_size mW mH width height text ∈
        ((autoLoop (fitsAt mW mH width height text) 10 MIN_AUTO_FONT_SIZE
          MAX_AUTO_FONT_SIZE MIN_AUTO_FONT_SIZE).2.filter
          (fitsAt mW mH width height text))) ∧
    (((autoLoop (fitsAt mW mH width height text) 10 MIN_AUTO_FONT_SIZE
          MAX_AUTO_FONT_SIZE MIN_AUTO_FONT_SIZE).2.filter
          (fitsAt mW mH width height text)) = [] →
      calculate_auto_font_size mW mH width height text = MIN_AUTO_FONT_SIZE) := by
  obtain ⟨b, ts, hr⟩ :
      ∃ b ts, autoLoop (fitsAt mW mH width height text) 10 MIN_AUTO_FONT_SIZE
        MAX_AUTO_FONT_SIZE MIN_AUTO_FONT_SIZE = (b, ts) := ⟨_, _, rfl⟩
  have h := autoLoop_spec (fitsAt mW mH width height text) 10 MIN_AUTO_FONT_SIZE
    MAX_AUTO_FONT_SIZE MIN_AUTO_FONT_SIZE le_rfl b ts hr
  unfold calculate_auto_font_size
  rw [hr]
  exact ⟨h.2.1, h.2.2.2, h.2.2.1⟩

/-- C1 witness: the search characterisation applied at two concrete
measurers — one where no tested size fits (result is the configured
minimum) and one where the result 44 is the largest fitting tested size. -/
theorem calculate_auto_font_size_spec_witness :
    calculate_auto_font_size (fun _ _ => 1000) (fun _ _ => 1000) 240 240 "x" =
      MIN_AUTO_FONT_SIZE ∧
    calculate_auto_font_size (fun s t => s * t.length) (fun s _ => s) 240 240 "hello" ∈
      ((autoLoop (fitsAt (fun s t => s * t.length) (fun s _ => s) 240 240 "hello") 10
        MIN_AUTO_FONT_SIZE MAX_AUTO_FONT_SIZE MIN_AUTO_FONT_SIZE).2.filter
        (fitsAt (fun s t => s * t.length) (fun s _ => s) 240 240 "hello")) ∧
    44 ≤ calculate_auto_font_size (fun s t => s * t.length) (fun s _ => s) 240 240 "hello" :=
  ⟨(calculate_auto_font_size_spec (fun _ _ => 1000) (fun _ _ => 1000) 240 240 "x").2.2
      (by decide),
    (calculate_auto_font_size_spec (fun s t => s * t.length) (fun s _ => s) 240 240
      "hello").2.1 (by decide),
    (calculate_auto_font_size_spec (fun s t => s * t.length) (fun s _ => s) 240 240
      "hello").1 44 (by decide)⟩

theorem smn_single (a : TextSegment) : spaceFlagsMatchNext [a] = true := rfl

theorem smn_cons2 (a b : TextSegment) (rest : List TextSegment) :
    spaceFlagsMatchNext (a :: b :: rest) =
      ((if a.text = " " then
          a.bold == b.bold && a.italic == b.italic && a.underline == b.underline
        else true) && spaceFlagsMatchNext (b :: rest)) := rfl

/-- Appending a synthetic space (whose flags equal the following word's)
and that word keeps the space-flags invariant, provided the line does not
end in a space. -/
theorem smn_append_pair :
    ∀ (cur : List TextSegment) (sp u : TextSegment),
      spaceFlagsMatchNext cur = true →
      (∀ v, cur.getLast? = some v → v.text ≠ " ") →
      sp.bold = u.bold → sp.italic = u.italic → sp.underline = u.underline →
      spaceFlagsMatchNext (cur ++ [sp, u]) = true := by
  intro cur
  induction cur with
  | nil =>
    intro sp u _ _ hb hi hu
    show spaceFlagsMatchNext [sp, u] = true
    rw [smn_cons2, smn_single, Bool.and_true]
    split_ifs with hsp
    · simp [hb, hi, hu]
    · rfl
  | cons a cur ih =>
    intro sp u hsmn hlast hb hi hu
    cases cur with
    | nil =>
      show spaceFlagsMatchNext (a :: sp :: [u]) = true
      have ha : a.text ≠ " " := hlast a (by simp)
      rw [smn_cons2, if_neg ha, Bool.true_and, smn_cons2, smn_single, Bool.and_true]
      split_ifs with hsp
      · simp [hb, hi, hu]
      · rfl
    | cons b rest =>
      show spaceFlagsMatchNext (a :: b :: (rest ++ [sp, u])) = true
      rw [smn_cons2] at hsmn
      rw [Bool.and_eq_true] at hsmn
      rw [smn_cons2, Bool.and_eq_true]
      refine ⟨hsmn.1, ?_⟩
      have hrec := ih sp u hsmn.2 ?_ hb hi hu
      · simpa [List.cons_append] using hrec
      · intro v hv
        apply hlast v
        rw [List.getLast?_cons_cons]
        exact hv

/-- The wrapping loop of `_wrap_formatted_text` preserves the
space-inherits-following-word invariant on every emitted line. -/
theorem wrapUnits_smn (m : Bool → Bool → String → Nat) (W : Int) :
    ∀ (us cur : List TextSegment) (curW : Nat),
      (∀ u ∈ us, u.text ≠ " ") →
      spaceFlagsMatchNext cur = true →
      (∀ v, cur.getLast? = some v → v.text ≠ " ") →
      ∀ L ∈ wrapUnits m W us cur curW, spaceFlagsMatchNext L = true := by
  intro us
  induction us with
  | nil =>
    intro cur curW _ hsmn _ L hL
    simp only [wrapUnits] at hL
    split_ifs at hL with h
    · simp at hL
    · rw [List.mem_singleton] at hL
      subst hL
      exact hsmn
  | cons u us ih =>
    intro cur curW hus hsmn hlast L hL
    have hu : u.text ≠ " " := hus u (by simp)
    have hus' : ∀ v ∈ us, v.text ≠ " " := fun v hv => hus v (List.mem_cons_of_mem _ hv)
    have hsingle : ∀ v, ([u] : List TextSegment).getLast? = some v → v.text ≠ " " := by
      intro v hv
      simp only [List.getLast?_singleton, Option.some.injEq] at hv
      subst hv
      exact hu
    by_cases hemp : cur.isEmpty = true
    · have hcur : cur = [] := List.isEmpty_iff.mp hemp
      subst hcur
      simp only [wrapUnits, List.isEmpty_nil, not_true_eq_false, false_and, if_false,
        List.nil_append] at hL
      exact ih [u] _ hus' (smn_single u) hsingle L hL
    · have hne : cur.isEmpty = false := Bool.eq_false_iff.mpr (fun h => hemp h)
      simp only [wrapUnits, hne, Bool.false_eq_true, not_false_eq_true, true_and,
        if_false] at hL
      split_ifs at hL with hover
      · rcases List.mem_cons.mp hL with rfl | hL'
        · exact hsmn
        · exact ih [u] _ hus' (smn_single u) hsingle L hL'
      · refine ih (cur ++ [⟨" ", u.bold, u.italic, u.underline⟩, u]) _ hus' ?_ ?_ L hL
        · exact smn_append_pair cur ⟨" ", u.bold, u.italic, u.underline⟩ u hsmn hlast
            rfl rfl rfl
        · intro v hv
          rw [show cur ++ [(⟨" ", u.bold, u.italic, u.underline⟩ : TextSegment), u] =
              (cur ++ [⟨" ", u.bold, u.italic, u.underline⟩]) ++ [u] by simp] at hv
          rw [List.getLast?_concat] at hv
          rw [Option.some.injEq] at hv
          subst hv
          exact hu

/-- C5 counterexample: wrapping the two one-word segments `a` (bold) and
`b` (plain) at a generous width produces the single line `[a(bold),
space(plain), b(plain)]` — the synthetic space carries the flags of the
following word's segment, not those of the preceding word's segment as
claimed. -/
theorem wrap_formatted_text_space_counterexample :
    ∃ line ∈ wrap_formatted_text (fun _ _ s => s.length) 100
        [⟨"a", true, false, false⟩, ⟨"b", false, false, false⟩],
      spaceFlagsMatchPrev line = false := by
  decide

/-- C5 amended: in formatted-segment wrapping, every synthetic single-space
segment carries the bold/italic/underline formatting of the segment
containing the word it precedes (the following word), including across
segments with different formatting. -/
theorem wrap_formatted_text_space_flags (m : Bool → Bool → String → Nat)
    (maxWidth : Int) (segs : List TextSegment) :
    ∀ line ∈ wrap_formatted_text m maxWidth segs,
      spaceFlagsMatchNext line = true := by
  intro line hline
  simp only [wrap_formatted_text] at hline
  split_ifs at hline with h
  · rw [List.mem_singleton] at hline
    subst hline
    rfl
  · refine wrapUnits_smn m maxWidth (explodeSegments segs) [] 0 ?_ rfl (by simp)
      line hline
    intro u hu
    unfold explodeSegments at hu
    rw [List.mem_flatMap] at hu
    obtain ⟨s, hs, hu'⟩ := hu
    rw [List.mem_map] at hu'
    obtain ⟨w, hw, rfl⟩ := hu'
    have hok := pySplit_wordOk s.text w hw
    intro heq
    rw [show (⟨w, s.bold, s.italic, s.underline⟩ : TextSegment).text = w from rfl] at heq
    rw [heq] at hok
    exact absurd (hok.2 ' ' (by decide)) (by decide)

/-- C5 witness: the amended space-formatting invariant applied at the
concrete two-segment input. -/
theorem wrap_formatted_text_space_flags_witness :
    spaceFlagsMatchNext
      [⟨"a", true, false, false⟩, ⟨" ", false, false, false⟩,
        ⟨"b", false, false, false⟩] = true :=
  wrap_formatted_text_space_flags (fun _ _ s => s.length) 100
    [⟨"a", true, false, false⟩, ⟨"b", false, false, false⟩] _ (by decide)

/-- Flooring the two endpoints of a shift by `b` perturbs the shift by less
than one. -/
theorem floor_shift_err (x b : ℚ) : |((⌊x + b⌋ : ℚ) - (⌊x⌋ : ℚ)) - b| < 1 := by
  have h1 : ((⌊x + b⌋ : ℤ) : ℚ) ≤ x + b := Int.floor_le _
  have h2 : x + b - 1 < ((⌊x + b⌋ : ℤ) : ℚ) := Int.sub_one_lt_floor _
  have h3 : ((⌊x⌋ : ℤ) : ℚ) ≤ x := Int.floor_le _
  have h4 : x - 1 < ((⌊x⌋ : ℤ) : ℚ) := Int.sub_one_lt_floor _
  rw [abs_lt]
  constructor <;> linarith

theorem drawJustWords_cons (m : String → Nat) (g : ℚ) (y : Int) (c : Color)
    (w : String) (ws : List String) (x : ℚ) :
    drawJustWords m g y c 0 none (w :: ws) x =
      DrawEvent.txt w ⌊x⌋ y c ::
        drawJustWords m g y c 0 none ws (x + m w + (if ws.isEmpty then 0 else g)) := rfl

/-- With no stroke, the justified word loop emits exactly the words in
order. -/
theorem drawJustWords_texts (m : String → Nat) (g : ℚ) (y : Int) (c : Color) :
    ∀ (ws : List String) (x : ℚ),
      (drawJustWords m g y c 0 none ws x).map eventText = ws := by
  intro ws
  induction ws with
  | nil => intro x; rfl
  | cons w ws ih =>
    intro x
    rw [drawJustWords_cons, List.map_cons, ih]
    rfl

theorem gapsWithinOne_single (m : String → Nat) (g : ℚ) (e : DrawEvent) :
    gapsWithinOne m g [e] = true := by
  cases e <;> rfl

theorem gapsWithinOne_cons2 (m : String → Nat) (g : ℚ) (w1 : String) (x1 y1 : Int)
    (c1 : Color) (w2 : String) (x2 y2 : Int) (c2 : Color) (rest : List DrawEvent) :
    gapsWithinOne m g (DrawEvent.txt w1 x1 y1 c1 :: DrawEvent.txt w2 x2 y2 c2 :: rest) =
      (decide (|((x2 : ℚ) - (x1 : ℚ) - (m w1 : ℚ)) - g| < 1) &&
        gapsWithinOne m g (DrawEvent.txt w2 x2 y2 c2 :: rest)) := rfl

/-- Every realized inter-word gap of the justified word loop is within one
pixel of the exact rational gap `g`. -/
theorem drawJustWords_gaps (m : String → Nat) (g : ℚ) (y : Int) (c : Color) :
    ∀ (ws : List String) (x : ℚ),
      gapsWithinOne m g (drawJustWords m g y c 0 none ws x) = true := by
  intro ws
  induction ws with
  | nil => intro x; rfl
  | cons w1 ws ih =>
    intro x
    cases ws with
    | nil => exact gapsWithinOne_single m g _
    | cons w2 rest =>
      rw [drawJustWords_cons, drawJustWords_cons]
      rw [show ((w2 :: rest : List String).isEmpty) = false from rfl]
      rw [if_neg (by simp : ¬(false = true))]
      rw [gapsWithinOne_cons2, Bool.and_eq_true]
      constructor
      · rw [decide_eq_true_eq]
        have h := floor_shift_err x ((m w1 : ℚ) + g)
        rw [← add_assoc] at h
        rw [abs_lt] at h ⊢
        constructor <;> linarith [h.1, h.2]
      · have ht := ih (x + (m w1 : ℚ) + g)
        rw [drawJustWords_cons] at ht
        exact ht

theorem rightEdgeIn_single (m : String → Nat) (pl : Nat) (target : ℚ)
    (w : String) (x y : Int) (c : Color) :
    rightEdgeIn m pl target [DrawEvent.txt w x y c] =
      decide ((x : ℚ) + (m w : ℚ) - (pl : ℚ) ≤ target ∧
        target - 1 < (x : ℚ) + (m w : ℚ) - (pl : ℚ)) := rfl

theorem rightEdgeIn_cons2 (m : String → Nat) (pl : Nat) (target : ℚ)
    (a b : DrawEvent) (rest : List DrawEvent) :
    rightEdgeIn m pl target (a :: b :: rest) = rightEdgeIn m pl target (b :: rest) := by
  cases a <;> cases b <;> rfl

/-- The right edge of the last drawn word lands within one pixel below the
exact total extent `x + Σ widths + (n-1)·g`, measured from `pl`. -/
theorem drawJustWords_right_edge (m : String → Nat) (g : ℚ) (y : Int) (c : Color)
    (pl : Nat) :
    ∀ (ws : List String) (x : ℚ) (target : ℚ), ws ≠ [] →
      target = x + ((ws.map fun w => (m w : ℚ)).sum) + ((ws.length : ℚ) - 1) * g - pl →
      rightEdgeIn m pl target (drawJustWords m g y c 0 none ws x) = true := by
  intro ws
  induction ws with
  | nil => intro x target h _; exact absurd rfl h
  | cons w1 ws ih =>
    intro x target _ htarget
    cases ws with
    | nil =>
      rw [drawJustWords_cons]
      rw [show drawJustWords m g y c 0 none [] (x + (m w1 : ℚ) + if ([] : List String).isEmpty then 0 else g) = [] from rfl]
      rw [rightEdgeIn_single, decide_eq_true_eq]
      have hfl : ((⌊x⌋ : ℤ) : ℚ) ≤ x := Int.floor_le _
      have hfg : x - 1 < ((⌊x⌋ : ℤ) : ℚ) := Int.sub_one_lt_floor _
      simp only [List.map_cons, List.map_nil, List.sum_cons, List.sum_nil,
        List.length_cons, List.length_nil] at htarget
      rw [htarget]
      push_cast
      constructor <;> linarith
    | cons w2 rest =>
      rw [drawJustWords_cons, drawJustWords_cons]
      rw [show ((w2 :: rest : List String).isEmpty) = false from rfl]
      rw [if_neg (by simp : ¬(false = true))]
      rw [rightEdgeIn_cons2]
      have hrec := ih (x + (m w1 : ℚ) + g) target (List.cons_ne_nil _ _) ?_
      · rw [drawJustWords_cons] at hrec
        exact hrec
      · rw [htarget]
        simp only [List.map_cons, List.sum_cons, List.length_cons]
        push_cast
        ring

/-- C6: when drawing a justified non-last line with n ≥ 2 words whose
widths fit the available width (canvas width minus left/right padding), the
words are drawn in order starting at `padding_left`, every realized
inter-word gap is within one pixel of the exact evenly distributed gap
`(available - Σ widths)/(n-1)`, and the drawn right edge reaches the
available width within one pixel (hence within the claimed 1 px per gap);
if the gap would be negative the line falls back to left alignment at
`padding_left`, and a single-word line and the last line of a justified
block are centered instead. -/
theorem draw_justified_line_spec (m : String → Nat) (width pl pr : Nat)
    (line : String) (y : Int) (c : Color) (k : Nat) (ln : String) (yy : Int) :
    (2 ≤ (pySplit line).length →
      0 ≤ (width : Int) - pl - pr - ((((pySplit line).map m).sum : Nat) : Int) →
      ((draw_justified_line m width pl pr line y c 0 none).map eventText = pySplit line ∧
        (draw_justified_line m width pl pr line y c 0 none).head? =
          some (DrawEvent.txt ((pySplit line).headD "") (pl : Int) y c) ∧
        gapsWithinOne m
          ((((width : Int) - pl - pr - ((((pySplit line).map m).sum : Nat) : Int) : Int) : ℚ) /
            (((pySplit line).length - 1 : Nat) : ℚ))
          (draw_justified_line m width pl pr line y c 0 none) = true ∧
        rightEdgeIn m pl ((width : ℚ) - pl - pr)
          (draw_justified_line m width pl pr line y c 0 none) = true)) ∧
    (2 ≤ (pySplit line).length →
      (width : Int) - pl - pr - ((((pySplit line).map m).sum : Nat) : Int) < 0 →
      draw_justified_line m width pl pr line y c 0 none =
        [DrawEvent.txt (joinSp (pySplit line)) (pl : Int) y c]) ∧
    ((pySplit line).length ≤ 1 →
      draw_justified_line m width pl pr line y c 0 none =
        [DrawEvent.txt line (((width : Int) - (m line : Int)).fdiv 2) y c]) ∧
    (lineEvents m width pl pr "justify" k (k - 1) ln yy c 0 none =
      [DrawEvent.txt ln (((width : Int) - (m ln : Int)).fdiv 2) yy c]) := by
  refine ⟨?_, ?_, ?_, ?_⟩
  · intro h2 hfit
    have hne : ¬((pySplit line).length ≤ 1) := by omega
    have hgaps : 0 < (pySplit line).length - 1 := by omega
    obtain ⟨w, ws, hws⟩ : ∃ w ws, pySplit line = w :: ws := by
      cases h : pySplit line with
      | nil => rw [h] at h2; simp at h2
      | cons a l => exact ⟨a, l, rfl⟩
    simp only [draw_justified_line]
    rw [if_neg hne, if_pos ⟨hgaps, hfit⟩]
    refine ⟨drawJustWords_texts m _ y c (pySplit line) _, ?_, ?_, ?_⟩
    · rw [hws, drawJustWords_cons]
      simp
    · exact drawJustWords_gaps m _ y c (pySplit line) _
    · have hlen1 : 1 ≤ (pySplit line).length := by omega
      have hn : ((pySplit line).length : ℚ) - 1 ≠ 0 := by
        have h2q : (2 : ℚ) ≤ ((pySplit line).length : ℚ) := by exact_mod_cast h2
        intro hc
        linarith
      refine drawJustWords_right_edge m _ y c pl (pySplit line) _ _
        (by rw [hws]; exact List.cons_ne_nil _ _) ?_
      have hsum : ((pySplit line).map fun w => ((m w : ℚ))).sum =
          ((((pySplit line).map m).sum : Nat) : ℚ) := by
        rw [Nat.cast_list_sum, List.map_map]
        rfl
      rw [hsum, Nat.cast_sub hlen1]
      push_cast
      field_simp
      simp only [Function.comp_def, Int.cast_natCast]
      ring
  · intro h2 hneg
    have hne : ¬((pySplit line).length ≤ 1) := by omega
    simp only [draw_justified_line]
    rw [if_neg hne, if_neg (by rintro ⟨-, hge⟩; omega)]
    rfl
  · intro h1
    simp only [draw_justified_line]
    rw [if_pos h1]
    rfl
  · simp only [lineEvents]
    rw [if_neg (by simp)]
    rw [if_pos (by simp)]
    rfl

/-- C6 witness: the justify-spacing properties applied at the concrete line
`"ab cd"` (widths 20,20 on a 240-wide canvas), and the centering branches at
concrete single-word and last-line inputs. -/
theorem draw_justified_line_spec_witness :
    (draw_justified_line (fun s => 10 * s.length) 240 0 0 "ab cd" 0 (0, 0, 0) 0 none).map
        eventText = pySplit "ab cd" ∧
    rightEdgeIn (fun s => 10 * s.length) 0
      (((240 : Nat) : ℚ) - ((0 : Nat) : ℚ) - ((0 : Nat) : ℚ))
      (draw_justified_line (fun s => 10 * s.length) 240 0 0 "ab cd" 0 (0, 0, 0) 0 none) =
        true ∧
    draw_justified_line (fun s => 10 * s.length) 240 0 0 "x" 0 (0, 0, 0) 0 none =
      [DrawEvent.txt "x"
        ((((240 : Nat) : Int) - ((10 * "x".length : Nat) : Int)).fdiv 2) 0 (0, 0, 0)] ∧
    lineEvents (fun s => 10 * s.length) 240 0 0 "justify" 3 (3 - 1) "zz" 7 (0, 0, 0) 0 none =
      [DrawEvent.txt "zz"
        ((((240 : Nat) : Int) - ((10 * "zz".length : Nat) : Int)).fdiv 2) 7 (0, 0, 0)] :=
  ⟨((draw_justified_line_spec (fun s => 10 * s.length) 240 0 0 "ab cd" 0 (0, 0, 0) 3 "zz" 7).1
      (by decide) (by decide)).1,
    ((draw_justified_line_spec (fun s => 10 * s.length) 240 0 0 "ab cd" 0 (0, 0, 0) 3 "zz" 7).1
      (by decide) (by decide)).2.2.2,
    (draw_justified_line_spec (fun s => 10 * s.length) 240 0 0 "x" 0 (0, 0, 0) 3 "zz" 7).2.2.1
      (by decide),
    (draw_justified_line_spec (fun s => 10 * s.length) 240 0 0 "zz" 0 (0, 0, 0) 3 "zz" 7).2.2.2⟩
